import Mathlib

/-!
Verification of the US-ITC instructional notebooks.

Shallow embedding of the computational content of the notebooks:
* `JobSearch` — the McCall job-search value-function iteration
  (`src/DynamicProgramming/JobSearch_Jax.ipynb`), NumPy and Jax variants.
* `RootFinding` — the average-cost FOC and average-cost function
  (`src/Optimization/RootFinding.ipynb`).
* `BigData` — the chunked/full mean computation and the downcast cell
  (`src/BigData/BigDataTechniques.ipynb`).
* `ParamToolsModel` — the parameter-validation behaviour exercised by
  `src/ParamTools/ParamToolsDemo.ipynb`.
* `DaskNotebook` — the persistent file-system effects of the Dask notebook.

Exact arithmetic is modelled with `ℚ` (or `ℝ` where the closed form needs
square roots); machine arrays become Lean lists.
-/

namespace JobSearch

/-- `np.sum(V * p)`: the dot product of the value function with the wage
probabilities, truncated at the shorter list exactly as `zipWith` does. -/
def dot (V p : List ℚ) : ℚ := (List.zipWith (· * ·) V p).sum

/-- The Bellman operator `Tv(V, b, beta, p, wages)` of the NumPy cell:
`EV = np.sum(V * p)`, `v_search = b + beta * EV`,
`v_accept = wages / (1 - beta)`, `TV = np.maximum(v_accept, v_search)`
(element-wise maximum of the array `v_accept` with the scalar `v_search`). -/
def Tv (V : List ℚ) (b beta : ℚ) (p wages : List ℚ) : List ℚ :=
  let EV := dot V p
  let v_search := b + beta * EV
  let v_accept := wages.map (fun w => w / (1 - beta))
  v_accept.map (fun va => max va v_search)

/-- The Bellman operator `Tv_jax` of the Jax cell: identical formula with
`jnp.sum` / `jnp.maximum` in place of the NumPy calls; in exact arithmetic the
array operations are the same functions. -/
def Tv_jax (V : List ℚ) (b beta : ℚ) (p wages : List ℚ) : List ℚ :=
  let EV := dot V p
  let v_search := b + beta * EV
  let v_accept := wages.map (fun w => w / (1 - beta))
  v_accept.map (fun va => max va v_search)

/-- `jax.device_put`: moves an array to the accelerator; in exact arithmetic
it does not change the value. -/
def device_put (x : α) : α := x

/-- `np.linspace(lo, hi, num)`: `num` evenly spaced points, the i-th being
`lo + i * (hi - lo) / (num - 1)`; for `num = 1` the step divisor is `0` and
the single point is `lo`, as NumPy returns `[lo]`. -/
def linspace (lo hi : ℚ) (num : ℕ) : List ℚ :=
  (List.range num).map (fun (i : ℕ) => lo + (i : ℚ) * (hi - lo) / ((num - 1 : ℕ) : ℚ))

/-- `np.abs(V - TV).max()`: sup-norm distance between successive iterates
(the entries are absolute values, so folding `max` from `0` returns the
maximum for the nonempty arrays the notebook uses). -/
def supDist (V TV : List ℚ) : ℚ :=
  (List.zipWith (fun a b => |a - b|) V TV).foldr max 0

/-- Result of the VFI while loop: final value function, number of passes
executed, and the value of the `v_dist` variable at exit. -/
structure LoopResult where
  V : List ℚ
  passes : ℕ
  v_dist : ℚ
  deriving Repr, DecidableEq

/-- The `while (v_dist > v_tol) & (iter < max_iter)` loop of `McCall_VFI`,
with `fuel = max_iter - iter` as the structural recursion measure: each pass
computes `TV = Tv(V, b, beta, p, wages)`, `v_dist = np.abs(V-TV).max()`,
sets `V = TV` and increments `iter`. -/
def VFI_loop (b beta : ℚ) (p wages : List ℚ) (v_tol : ℚ) :
    ℕ → ℚ → List ℚ → LoopResult
  | 0, v_dist, V => ⟨V, 0, v_dist⟩
  | fuel + 1, v_dist, V =>
    if v_tol < v_dist then
      let TV := Tv V b beta p wages
      let r := VFI_loop b beta p wages v_tol fuel (supDist V TV) TV
      ⟨r.V, r.passes + 1, r.v_dist⟩
    else ⟨V, 0, v_dist⟩

/-- Identical loop for `McCall_VFI_jax`, written with `Tv_jax` and
`jnp.abs(V-TV).max()`. -/
def VFI_loop_jax (b beta : ℚ) (p wages : List ℚ) (v_tol : ℚ) :
    ℕ → ℚ → List ℚ → LoopResult
  | 0, v_dist, V => ⟨V, 0, v_dist⟩
  | fuel + 1, v_dist, V =>
    if v_tol < v_dist then
      let TV := Tv_jax V b beta p wages
      let r := VFI_loop_jax b beta p wages v_tol fuel (supDist V TV) TV
      ⟨r.V, r.passes + 1, r.v_dist⟩
    else ⟨V, 0, v_dist⟩

/-- The wage grid `wages = np.linspace(w_min, w_max, n+1)` of `McCall_VFI`. -/
def mccall_wages (w_min w_max : ℚ) (n : ℕ) : List ℚ :=
  linspace w_min w_max (n + 1)

/-- `p = pdf(wages); p = p / p.sum()`: the normalized wage probabilities.
`pdf : ℚ → ℚ` stands for the SciPy library function
`stats.lognorm.pdf(·, s=sigma, scale=mu)`, which the notebook only calls. -/
def mccall_p (pdf : ℚ → ℚ) (w_min w_max : ℚ) (n : ℕ) : List ℚ :=
  let p0 := (mccall_wages w_min w_max n).map pdf
  p0.map (fun x => x / p0.sum)

/-- `b = theta * np.sum(wages * p)`: unemployment benefit as a replacement
rate times the expected wage. -/
def mccall_b (pdf : ℚ → ℚ) (theta w_min w_max : ℚ) (n : ℕ) : ℚ :=
  theta * dot (mccall_wages w_min w_max n) (mccall_p pdf w_min w_max n)

/-- `McCall_VFI` with its loop state exposed: wage grid, normalized
probabilities, benefit `b`, zero initial guess `V = np.zeros(wages.size)`,
initial `v_dist = 10`, `iter = 0`, then the while loop up to `max_iter`. -/
def McCall_VFI_run (pdf : ℚ → ℚ) (theta beta w_min w_max : ℚ) (n : ℕ)
    (v_tol : ℚ) (max_iter : ℕ) : LoopResult :=
  let wages := mccall_wages w_min w_max n
  let p := mccall_p pdf w_min w_max n
  let b := mccall_b pdf theta w_min w_max n
  let V := List.replicate (n + 1) (0 : ℚ)
  VFI_loop b beta p wages v_tol max_iter 10 V

/-- `McCall_VFI`: returns the final value function `V`. -/
def McCall_VFI (pdf : ℚ → ℚ) (theta beta w_min w_max : ℚ) (n : ℕ)
    (v_tol : ℚ) (max_iter : ℕ) : List ℚ :=
  (McCall_VFI_run pdf theta beta w_min w_max n v_tol max_iter).V

/-- `McCall_VFI_jax` with its loop state exposed: same setup as
`McCall_VFI`, the arrays passed through `jax.device_put`, the loop running
`Tv_jax`. -/
def McCall_VFI_jax_run (pdf : ℚ → ℚ) (theta beta w_min w_max : ℚ) (n : ℕ)
    (v_tol : ℚ) (max_iter : ℕ) : LoopResult :=
  let wages := device_put (mccall_wages w_min w_max n)
  let p := device_put (mccall_p pdf w_min w_max n)
  let b := mccall_b pdf theta w_min w_max n
  let V := device_put (List.replicate (n + 1) (0 : ℚ))
  VFI_loop_jax b beta p wages v_tol max_iter 10 V

/-- `McCall_VFI_jax`: returns the final value function `V`. -/
def McCall_VFI_jax (pdf : ℚ → ℚ) (theta beta w_min w_max : ℚ) (n : ℕ)
    (v_tol : ℚ) (max_iter : ℕ) : List ℚ :=
  (McCall_VFI_jax_run pdf theta beta w_min w_max n v_tol max_iter).V

/-- The `k`-th Bellman iterate of `McCall_VFI`, starting from the all-zero
guess on the wage grid. -/
def mccall_iterate (pdf : ℚ → ℚ) (theta beta w_min w_max : ℚ) (n : ℕ)
    (k : ℕ) : List ℚ :=
  (fun W => Tv W (mccall_b pdf theta w_min w_max n) beta
      (mccall_p pdf w_min w_max n) (mccall_wages w_min w_max n))^[k]
    (List.replicate (n + 1) (0 : ℚ))

end JobSearch

namespace JobSearch

/-- Helper: each pass of the while loop applies `Tv` once, the pass count is
bounded by the fuel (`max_iter - iter`), and an exit with fuel remaining means
the convergence test `v_dist <= v_tol` held. -/
theorem VFI_loop_spec (b beta : ℚ) (p wages : List ℚ) (v_tol : ℚ) :
    ∀ (fuel : ℕ) (d : ℚ) (V : List ℚ),
      (VFI_loop b beta p wages v_tol fuel d V).passes ≤ fuel ∧
      (VFI_loop b beta p wages v_tol fuel d V).V =
        (fun W => Tv W b beta p wages)^[(VFI_loop b beta p wages v_tol fuel d V).passes] V ∧
      ((VFI_loop b beta p wages v_tol fuel d V).passes < fuel →
        (VFI_loop b beta p wages v_tol fuel d V).v_dist ≤ v_tol) := by
  intro fuel
  induction fuel with
  | zero =>
    intro d V
    exact ⟨le_refl 0, rfl, fun h => absurd h (Nat.not_lt_zero 0)⟩
  | succ k ih =>
    intro d V
    by_cases h : v_tol < d
    · have hrw : VFI_loop b beta p wages v_tol (k + 1) d V =
        ⟨(VFI_loop b beta p wages v_tol k
            (supDist V (Tv V b beta p wages)) (Tv V b beta p wages)).V,
          (VFI_loop b beta p wages v_tol k
            (supDist V (Tv V b beta p wages)) (Tv V b beta p wages)).passes + 1,
          (VFI_loop b beta p wages v_tol k
            (supDist V (Tv V b beta p wages)) (Tv V b beta p wages)).v_dist⟩ := by
        simp [VFI_loop, h]
      obtain ⟨h1, h2, h3⟩ := ih (supDist V (Tv V b beta p wages)) (Tv V b beta p wages)
      refine ⟨?_, ?_, ?_⟩
      · rw [hrw]; exact Nat.succ_le_succ h1
      · rw [hrw]
        simpa [Function.iterate_succ_apply] using h2
      · rw [hrw]
        intro hlt
        exact h3 (Nat.lt_of_succ_lt_succ hlt)
    · have hrw : VFI_loop b beta p wages v_tol (k + 1) d V = ⟨V, 0, d⟩ := by
        simp [VFI_loop, h]
      rw [hrw]
      exact ⟨Nat.zero_le _, rfl, fun _ => le_of_not_lt h⟩

/-- `Tv_jax` and `Tv` are the same function in exact arithmetic. -/
theorem Tv_jax_eq : @Tv_jax = @Tv := rfl

/-- The Jax while loop is the NumPy while loop in exact arithmetic. -/
theorem VFI_loop_jax_eq (b beta : ℚ) (p wages : List ℚ) (v_tol : ℚ) :
    ∀ (fuel : ℕ) (d : ℚ) (V : List ℚ),
      VFI_loop_jax b beta p wages v_tol fuel d V =
        VFI_loop b beta p wages v_tol fuel d V := by
  intro fuel
  induction fuel with
  | zero => intro d V; rfl
  | succ k ih =>
    intro d V
    by_cases h : v_tol < d
    · simp only [VFI_loop_jax, VFI_loop, if_pos h, Tv_jax_eq, ih]
    · simp only [VFI_loop_jax, VFI_loop, if_neg h]

end JobSearch

namespace JobSearch

/-- C1 (amended): `McCall_VFI` starts from the all-zero value-function guess
on the discretized wage grid and repeatedly applies the Bellman operator
`Tv`: the returned value function is the Bellman iterate of the zero guess
after as many passes as the loop ran, the loop runs at most `max_iter`
passes, and whenever it stops before exhausting `max_iter` the sup-norm
convergence criterion `v_dist ≤ v_tol` holds at the returned iterate. -/
theorem McCall_VFI_loop_behaviour (pdf : ℚ → ℚ) (theta beta w_min w_max : ℚ)
    (n : ℕ) (v_tol : ℚ) (max_iter : ℕ) :
    McCall_VFI pdf theta beta w_min w_max n v_tol max_iter =
      mccall_iterate pdf theta beta w_min w_max n
        (McCall_VFI_run pdf theta beta w_min w_max n v_tol max_iter).passes ∧
    (McCall_VFI_run pdf theta beta w_min w_max n v_tol max_iter).passes ≤ max_iter ∧
    ((McCall_VFI_run pdf theta beta w_min w_max n v_tol max_iter).passes < max_iter →
      (McCall_VFI_run pdf theta beta w_min w_max n v_tol max_iter).v_dist ≤ v_tol) := by
  obtain ⟨h1, h2, h3⟩ := VFI_loop_spec (mccall_b pdf theta w_min w_max n) beta
    (mccall_p pdf w_min w_max n) (mccall_wages w_min w_max n) v_tol max_iter 10
    (List.replicate (n + 1) (0 : ℚ))
  exact ⟨h2, h1, h3⟩

/-- C1 counterexample: at the parameterization beta = 0 ∈ [0,1),
w_min = 1 < w_max = 2, n = 1 ≥ 1, v_tol = 1/1000000 > 0, max_iter = 1 ≥ 1
(with the constant density and theta = 0), the loop exits with
`v_dist = 2 > v_tol`: the returned iterate does not satisfy the convergence
criterion, so the loop does not iterate until convergence. -/
theorem McCall_VFI_stops_before_convergence :
    ((0 : ℚ) ≤ 0 ∧ (0 : ℚ) < 1 ∧ (1 : ℚ) < 2 ∧ 1 ≤ (1 : ℕ) ∧
      (0 : ℚ) < 1 / 1000000 ∧ 1 ≤ (1 : ℕ)) ∧
    ¬ (McCall_VFI_run (fun _ => 1) 0 0 1 2 1 (1 / 1000000) 1).v_dist ≤
        1 / 1000000 := by
  norm_num [McCall_VFI_run, mccall_wages, mccall_p, mccall_b, linspace,
    List.range_succ, List.replicate_succ, VFI_loop, Tv, dot, supDist]

/-- C2: in exact real arithmetic the Jax implementation equals the NumPy
implementation: `Tv_jax` agrees with `Tv` on all inputs with beta ≠ 1, and
`McCall_VFI_jax` returns the same value function as `McCall_VFI` at every
common parameterization — the two differ only in execution backend. -/
theorem jax_refines_numpy :
    (∀ (V : List ℚ) (b beta : ℚ) (p wages : List ℚ), beta ≠ 1 →
      Tv_jax V b beta p wages = Tv V b beta p wages) ∧
    (∀ (pdf : ℚ → ℚ) (theta beta w_min w_max : ℚ) (n : ℕ) (v_tol : ℚ)
        (max_iter : ℕ),
      McCall_VFI_jax pdf theta beta w_min w_max n v_tol max_iter =
        McCall_VFI pdf theta beta w_min w_max n v_tol max_iter) := by
  constructor
  · intro V b beta p wages _
    rfl
  · intro pdf theta beta w_min w_max n v_tol max_iter
    show (VFI_loop_jax (mccall_b pdf theta w_min w_max n) beta
        (mccall_p pdf w_min w_max n) (mccall_wages w_min w_max n) v_tol
        max_iter 10 (List.replicate (n + 1) (0 : ℚ))).V = _
    rw [VFI_loop_jax_eq]
    rfl

/-- Witness for C2 at a concrete input and parameterization. -/
theorem jax_refines_numpy_witness :
    Tv_jax [0] 0 (1 / 2) [1] [3] = Tv [0] 0 (1 / 2) [1] [3] ∧
    McCall_VFI_jax (fun _ => 1) 0 0 1 2 1 (1 / 1000000) 2 =
      McCall_VFI (fun _ => 1) 0 0 1 2 1 (1 / 1000000) 2 :=
  ⟨jax_refines_numpy.1 [0] 0 (1 / 2) [1] [3] (by norm_num),
    jax_refines_numpy.2 (fun _ => 1) 0 0 1 2 1 (1 / 1000000) 2⟩

/-- C5: both VFI solvers are total: the `while` loop executes at most
`max_iter` passes (the counter starts at 0 and each pass adds exactly 1),
even when the sup-norm convergence criterion is never met. -/
theorem McCall_VFI_terminates (pdf : ℚ → ℚ) (theta beta w_min w_max : ℚ)
    (n : ℕ) (v_tol : ℚ) (max_iter : ℕ) :
    (McCall_VFI_run pdf theta beta w_min w_max n v_tol max_iter).passes ≤
        max_iter ∧
    (McCall_VFI_jax_run pdf theta beta w_min w_max n v_tol max_iter).passes ≤
        max_iter := by
  constructor
  · exact (VFI_loop_spec (mccall_b pdf theta w_min w_max n) beta
      (mccall_p pdf w_min w_max n) (mccall_wages w_min w_max n) v_tol max_iter
      10 (List.replicate (n + 1) (0 : ℚ))).1
  · show (VFI_loop_jax (mccall_b pdf theta w_min w_max n) beta
        (mccall_p pdf w_min w_max n) (mccall_wages w_min w_max n) v_tol
        max_iter 10 (List.replicate (n + 1) (0 : ℚ))).passes ≤ max_iter
    rw [VFI_loop_jax_eq]
    exact (VFI_loop_spec (mccall_b pdf theta w_min w_max n) beta
      (mccall_p pdf w_min w_max n) (mccall_wages w_min w_max n) v_tol max_iter
      10 (List.replicate (n + 1) (0 : ℚ))).1

end JobSearch

namespace JobSearch

/-- Helper: `np.sum(V * p)` is monotone in `V` when the probabilities are
nonnegative. -/
theorem dot_mono : ∀ {V V' : List ℚ}, List.Forall₂ (· ≤ ·) V V' →
    ∀ {p : List ℚ}, (∀ x ∈ p, 0 ≤ x) → dot V p ≤ dot V' p := by
  intro V V' hVV
  induction hVV with
  | nil => intro p _; exact le_refl _
  | cons hab _ ih =>
    intro p hp
    cases p with
    | nil => exact le_refl _
    | cons q p' =>
      have hq : 0 ≤ q := hp q (List.mem_cons_self q p')
      have hp' : ∀ x ∈ p', 0 ≤ x := fun x hx => hp x (List.mem_cons_of_mem q hx)
      simp only [dot, List.zipWith_cons_cons, List.sum_cons]
      exact add_le_add (mul_le_mul_of_nonneg_right hab hq) (ih hp')

/-- Helper: the Bellman operator maps each wage `w` to
`max (w / (1 - beta)) v_search`. -/
theorem Tv_eq_map (V : List ℚ) (b beta : ℚ) (p wages : List ℚ) :
    Tv V b beta p wages =
      wages.map (fun w => max (w / (1 - beta)) (b + beta * dot V p)) := by
  simp [Tv, List.map_map, Function.comp]

/-- Helper: two maps over the same list are pointwise `Forall₂`-related when
the functions are pointwise related on the list. -/
theorem forall₂_map_same {R : ℚ → ℚ → Prop} (f g : ℚ → ℚ) :
    ∀ (l : List ℚ), (∀ x ∈ l, R (f x) (g x)) →
      List.Forall₂ R (l.map f) (l.map g) := by
  intro l
  induction l with
  | nil => intro _; exact List.Forall₂.nil
  | cons a t ih =>
    intro h
    exact List.Forall₂.cons (h a (List.mem_cons_self a t))
      (ih fun x hx => h x (List.mem_cons_of_mem a hx))

/-- Helper: the identity map is `Forall₂`-related to a pointwise-dominating
map over the same list. -/
theorem forall₂_id_map {R : ℚ → ℚ → Prop} (g : ℚ → ℚ) :
    ∀ (l : List ℚ), (∀ x ∈ l, R x (g x)) → List.Forall₂ R l (l.map g) := by
  intro l
  induction l with
  | nil => intro _; exact List.Forall₂.nil
  | cons a t ih =>
    intro h
    exact List.Forall₂.cons (h a (List.mem_cons_self a t))
      (ih fun x hx => h x (List.mem_cons_of_mem a hx))

/-- C8: the Bellman operator `Tv` is monotone: for beta in [0,1), a
componentwise-nonnegative probability vector `p`, and value vectors
`V ≤ V'` componentwise, `Tv V ≤ Tv V'` componentwise; and every `Tv` image
dominates `wages / (1 - beta)` componentwise. -/
theorem Tv_monotone (b beta : ℚ) (p wages V V' : List ℚ)
    (hbeta0 : 0 ≤ beta) (_hbeta1 : beta < 1)
    (hp : ∀ x ∈ p, 0 ≤ x) (_hp1 : p.sum = 1)
    (hVV : List.Forall₂ (· ≤ ·) V V') :
    List.Forall₂ (· ≤ ·) (Tv V b beta p wages) (Tv V' b beta p wages) ∧
    List.Forall₂ (· ≤ ·) (wages.map (fun w => w / (1 - beta)))
      (Tv V b beta p wages) := by
  have hEV : dot V p ≤ dot V' p := dot_mono hVV hp
  have hs : b + beta * dot V p ≤ b + beta * dot V' p :=
    add_le_add_left (mul_le_mul_of_nonneg_left hEV hbeta0) b
  constructor
  · rw [Tv_eq_map, Tv_eq_map]
    exact forall₂_map_same _ _ wages fun w _ => max_le_max (le_refl _) hs
  · exact forall₂_id_map (fun va => max va (b + beta * dot V p))
      (wages.map (fun w => w / (1 - beta)))
      (fun x _ => le_max_left x (b + beta * dot V p))

/-- Witness for C8 at a concrete parameterization. -/
theorem Tv_monotone_witness :
    List.Forall₂ (· ≤ ·) (Tv [0] 0 (1 / 2) [1] [1, 2])
      (Tv [1] 0 (1 / 2) [1] [1, 2]) ∧
    List.Forall₂ (· ≤ ·) ([1, 2].map (fun w => w / (1 - 1 / 2 : ℚ)))
      (Tv [0] 0 (1 / 2) [1] [1, 2]) :=
  Tv_monotone 0 (1 / 2) [1] [1, 2] [0] [1] (by norm_num) (by norm_num)
    (by norm_num) (by norm_num)
    (List.Forall₂.cons (by norm_num) List.Forall₂.nil)

end JobSearch

namespace JobSearch

/-- Helper: a list of nonnegative rationals with a positive member has a
positive sum. -/
theorem sum_pos_of_mem_pos : ∀ (l : List ℚ), (∀ x ∈ l, 0 ≤ x) →
    ∀ x ∈ l, 0 < x → 0 < l.sum := by
  intro l
  induction l with
  | nil => intro _ x hx; exact absurd hx (List.not_mem_nil x)
  | cons a t ih =>
    intro h0 x hx hxp
    rcases List.mem_cons.mp hx with rfl | hxt
    · have ht : 0 ≤ t.sum :=
        List.sum_nonneg fun y hy => h0 y (List.mem_cons_of_mem _ hy)
      simpa [List.sum_cons] using add_pos_of_pos_of_nonneg hxp ht
    · have ha : 0 ≤ a := h0 a (List.mem_cons_self a t)
      have ht : 0 < t.sum :=
        ih (fun y hy => h0 y (List.mem_cons_of_mem _ hy)) x hxt hxp
      simpa [List.sum_cons] using add_pos_of_nonneg_of_pos ha ht

/-- Helper: dividing every entry by a constant divides the sum. -/
theorem sum_map_div (c : ℚ) :
    ∀ (l : List ℚ), (l.map (fun x => x / c)).sum = l.sum / c := by
  intro l
  induction l with
  | nil => simp
  | cons a t ih => simp [ih, add_div]

/-- Helper: the map of a step-monotone function over `List.range` is a
nondecreasing list. -/
theorem chain'_map_range (f : ℕ → ℚ) (num : ℕ) (hf : ∀ i, f i ≤ f (i + 1)) :
    ((List.range num).map f).Chain' (· ≤ ·) := by
  rw [List.chain'_map]
  cases num with
  | zero => simp
  | succ m =>
    rw [List.chain'_range_succ]
    intro k _
    exact hf k

/-- Helper: the `np.linspace` grid is nondecreasing when `lo ≤ hi`. -/
theorem linspace_chain (lo hi : ℚ) (num : ℕ) (h : lo ≤ hi) :
    (linspace lo hi num).Chain' (· ≤ ·) := by
  unfold linspace
  refine chain'_map_range _ num fun i => ?_
  have hk1 : ((i : ℚ)) ≤ ((i + 1 : ℕ) : ℚ) := by exact_mod_cast Nat.le_succ i
  exact add_le_add_left
    (div_le_div_of_nonneg_right
      (mul_le_mul_of_nonneg_right hk1 (sub_nonneg.mpr h))
      (Nat.cast_nonneg _)) lo

/-- Helper: every `Tv` image dominates `wages / (1 - beta)` componentwise
and is nondecreasing in the wage index when the wage grid is nondecreasing
and `beta < 1`. -/
theorem Tv_image_props (V : List ℚ) (b beta : ℚ) (p wages : List ℚ)
    (hbeta : beta < 1) (hw : wages.Chain' (· ≤ ·)) :
    List.Forall₂ (fun w v => w / (1 - beta) ≤ v) wages (Tv V b beta p wages) ∧
    (Tv V b beta p wages).Chain' (· ≤ ·) := by
  have h1b : (0 : ℚ) < 1 - beta := sub_pos.mpr hbeta
  constructor
  · rw [Tv_eq_map]
    exact forall₂_id_map _ wages fun x _ =>
      le_max_left (x / (1 - beta)) (b + beta * dot V p)
  · rw [Tv_eq_map]
    exact List.chain'_map_of_chain' _
      (fun a c hac =>
        max_le_max (div_le_div_of_nonneg_right hac h1b.le) (le_refl _)) hw

/-- C9: `McCall_VFI` invariants: the normalized probability vector has
nonnegative entries summing to 1 (given a nonnegative, somewhere-positive
pdf on the grid), and after the first loop pass every Bellman iterate
dominates `wages / (1 - beta)` componentwise and is nondecreasing in the
wage index; each further application of `Tv` preserves both properties. -/
theorem McCall_VFI_invariants (pdf : ℚ → ℚ) (theta beta w_min w_max : ℚ)
    (n k : ℕ) (hbeta : beta < 1) (hw : w_min ≤ w_max)
    (hpdf : ∀ w ∈ mccall_wages w_min w_max n, 0 ≤ pdf w)
    (hpos : ∃ w ∈ mccall_wages w_min w_max n, 0 < pdf w)
    (hk : 1 ≤ k) :
    (∀ x ∈ mccall_p pdf w_min w_max n, 0 ≤ x) ∧
    (mccall_p pdf w_min w_max n).sum = 1 ∧
    List.Forall₂ (fun w v => w / (1 - beta) ≤ v)
      (mccall_wages w_min w_max n)
      (mccall_iterate pdf theta beta w_min w_max n k) ∧
    (mccall_iterate pdf theta beta w_min w_max n k).Chain' (· ≤ ·) := by
  have h0 : ∀ x ∈ (mccall_wages w_min w_max n).map pdf, 0 ≤ x := by
    intro x hx
    rcases List.mem_map.mp hx with ⟨w, hw', rfl⟩
    exact hpdf w hw'
  obtain ⟨w, hwmem, hwpos⟩ := hpos
  have hsum : 0 < ((mccall_wages w_min w_max n).map pdf).sum :=
    sum_pos_of_mem_pos _ h0 (pdf w) (List.mem_map_of_mem pdf hwmem) hwpos
  refine ⟨?_, ?_, ?_⟩
  · intro x hx
    rcases List.mem_map.mp hx with ⟨y, hy, rfl⟩
    exact div_nonneg (h0 y hy) hsum.le
  · show (((mccall_wages w_min w_max n).map pdf).map
      (fun x => x / ((mccall_wages w_min w_max n).map pdf).sum)).sum = 1
    rw [sum_map_div]
    exact div_self hsum.ne'
  · cases k with
    | zero => exact absurd hk (by omega)
    | succ j =>
      have hiter : mccall_iterate pdf theta beta w_min w_max n (j + 1) =
          Tv (mccall_iterate pdf theta beta w_min w_max n j)
            (mccall_b pdf theta w_min w_max n) beta
            (mccall_p pdf w_min w_max n) (mccall_wages w_min w_max n) :=
        Function.iterate_succ_apply' _ j _
      rw [hiter]
      exact Tv_image_props _ _ _ _ _ hbeta (linspace_chain w_min w_max (n + 1) hw)

/-- Witness for C9 at a concrete parameterization (constant pdf, two-point
grid, first iterate). -/
theorem McCall_VFI_invariants_witness :
    (∀ x ∈ mccall_p (fun _ => 1) 0 1 1, 0 ≤ x) ∧
    (mccall_p (fun _ => 1) 0 1 1).sum = 1 ∧
    List.Forall₂ (fun w v => w / (1 - (0 : ℚ)) ≤ v)
      (mccall_wages 0 1 1) (mccall_iterate (fun _ => 1) 0 0 0 1 1 1) ∧
    (mccall_iterate (fun _ => 1) 0 0 0 1 1 1).Chain' (· ≤ ·) :=
  McCall_VFI_invariants (fun _ => 1) 0 0 0 1 1 1 (by norm_num) (by norm_num)
    (fun w _ => by norm_num)
    ⟨0, by norm_num [mccall_wages, linspace, List.range_succ], by norm_num⟩
    (le_refl 1)

end JobSearch

namespace BigData

/-- An `export_value` column entry: `none` models a missing value (NaN),
which pandas `sum`, `count` and `mean` all exclude. -/
abbrev Entry := Option ℚ

/-- `chunk["export_value"].sum()`: sum of the present entries. -/
def col_sum (l : List Entry) : ℚ := (l.filterMap id).sum

/-- `chunk["export_value"].count()`: number of present entries. -/
def col_count (l : List Entry) : ℕ := (l.filterMap id).length

/-- `full_data`: the mean of the `export_value` column computed over the
whole table at once, `df["export_value"].mean()`. -/
def full_data_mean (rows : List Entry) : ℚ :=
  col_sum rows / (col_count rows : ℚ)

/-- `chunked_data`: accumulates `total += chunk["export_value"].sum()` and
`count += chunk["export_value"].count()` over the chunks, then reports
`total / count`. -/
def chunked_data_mean (chunks : List (List Entry)) : ℚ :=
  ((chunks.map col_sum).sum) / (((chunks.map col_count).sum : ℕ) : ℚ)

/-- Helper: the chunk sums add up to the full sum. -/
theorem col_sum_join : ∀ (chunks : List (List Entry)),
    (chunks.map col_sum).sum = col_sum chunks.flatten := by
  intro chunks
  induction chunks with
  | nil => simp [col_sum]
  | cons c t ih => simp [col_sum, List.filterMap_append, ih]

/-- Helper: the chunk counts add up to the full count. -/
theorem col_count_join : ∀ (chunks : List (List Entry)),
    (chunks.map col_count).sum = col_count chunks.flatten := by
  intro chunks
  induction chunks with
  | nil => simp [col_count]
  | cons c t ih => simp [col_count, List.filterMap_append, ih]

/-- C10: `chunked_data` computes the same mean as `full_data`: for every
table and every partition of its rows into consecutive chunks, the sum over
chunks of the per-chunk sums divided by the sum over chunks of the
per-chunk counts equals the mean over the whole table, missing entries
excluded identically from sums and counts. -/
theorem chunked_mean_eq_full_mean (chunks : List (List Entry)) :
    chunked_data_mean chunks = full_data_mean chunks.flatten := by
  unfold chunked_data_mean full_data_mean
  rw [col_sum_join, col_count_join]

end BigData

namespace RootFinding

/-- `FOC_AC(x, *params)` with `params = (a, b, c)`: the first-order
condition of the average-cost function written as a zero condition,
`error = -a * x ** -2 + c`. -/
noncomputable def FOC_AC (x : ℝ) (params : ℝ × ℝ × ℝ) : ℝ :=
  -params.1 * x ^ (-2 : ℤ) + params.2.2

/-- `avg_cost(x, *params)` with `params = (a, b, c)`:
`ac = a * (x ** -1) + b + c * x`. -/
noncomputable def avg_cost (x : ℝ) (params : ℝ × ℝ × ℝ) : ℝ :=
  params.1 * x ^ (-1 : ℤ) + params.2.1 + params.2.2 * x

/-- The closed-form solution `(a/c) ** (1/2)` the notebook prints as the
analytical minimizer. -/
noncomputable def x_hat (a c : ℝ) : ℝ := Real.sqrt (a / c)

/-- Helper: the Python power `x ** -2` as an inverse square. -/
theorem zpow_neg_two_eq (x : ℝ) : x ^ (-2 : ℤ) = (x ^ 2)⁻¹ := by
  rw [zpow_neg]; norm_cast

/-- Helper: the Python power `x ** -1` as an inverse. -/
theorem zpow_neg_one_eq (x : ℝ) : x ^ (-1 : ℤ) = x⁻¹ := by
  rw [zpow_neg]; norm_cast; rw [pow_one]

/-- Helper: the average cost at the closed-form point is `b + 2√(a)√(c)`. -/
theorem avg_cost_at_xhat (a b c : ℝ) (ha : 0 < a) (_hc : 0 < c) :
    avg_cost (x_hat a c) (a, b, c) = b + 2 * (Real.sqrt a * Real.sqrt c) := by
  unfold avg_cost x_hat
  rw [zpow_neg_one_eq, Real.sqrt_div ha.le]
  calc a * (Real.sqrt a / Real.sqrt c)⁻¹ + b + c * (Real.sqrt a / Real.sqrt c)
      = (a / Real.sqrt a) * Real.sqrt c + b + (c / Real.sqrt c) * Real.sqrt a := by
        rw [inv_div]; ring
    _ = Real.sqrt a * Real.sqrt c + b + Real.sqrt c * Real.sqrt a := by
        rw [Real.div_sqrt, Real.div_sqrt]
    _ = b + 2 * (Real.sqrt a * Real.sqrt c) := by ring

/-- Helper: AM–GM lower bound for the average cost on the positive axis. -/
theorem avg_cost_lower_bound (a b c : ℝ) (ha : 0 < a) (hc : 0 < c)
    (x : ℝ) (hx : 0 < x) :
    b + 2 * (Real.sqrt a * Real.sqrt c) ≤ avg_cost x (a, b, c) := by
  have hu2 : (Real.sqrt a / Real.sqrt x) ^ 2 = a / x := by
    rw [div_pow, Real.sq_sqrt ha.le, Real.sq_sqrt hx.le]
  have hv2 : (Real.sqrt c * Real.sqrt x) ^ 2 = c * x := by
    rw [mul_pow, Real.sq_sqrt hc.le, Real.sq_sqrt hx.le]
  have hsx : Real.sqrt x ≠ 0 := Real.sqrt_ne_zero'.mpr hx
  have huv : Real.sqrt a / Real.sqrt x * (Real.sqrt c * Real.sqrt x) =
      Real.sqrt a * Real.sqrt c := by
    field_simp
    ring
  have hkey := two_mul_le_add_sq (Real.sqrt a / Real.sqrt x)
    (Real.sqrt c * Real.sqrt x)
  rw [mul_assoc, huv, hu2, hv2] at hkey
  unfold avg_cost
  rw [zpow_neg_one_eq, show a * x⁻¹ = a / x from (div_eq_mul_inv a x).symm]
  linarith [hkey]

/-- C3: for positive cost parameters, the closed-form point
`x_hat = (a/c) ** (1/2)` is a root of `FOC_AC`, the unique positive root,
the minimizer of `avg_cost` over `x > 0`, and `FOC_AC` is the derivative
of `avg_cost` (away from 0) — so the root of the FOC is the closed-form
minimizer of average cost. -/
theorem FOC_AC_closed_form (a b c : ℝ) (ha : 0 < a) (_hb : 0 < b)
    (hc : 0 < c) :
    FOC_AC (x_hat a c) (a, b, c) = 0 ∧
    (∀ x, 0 < x → FOC_AC x (a, b, c) = 0 → x = x_hat a c) ∧
    (∀ x, 0 < x → avg_cost (x_hat a c) (a, b, c) ≤ avg_cost x (a, b, c)) ∧
    (∀ x, x ≠ 0 →
      HasDerivAt (fun y => avg_cost y (a, b, c)) (FOC_AC x (a, b, c)) x) := by
  have hac : 0 < a / c := div_pos ha hc
  refine ⟨?_, ?_, ?_, ?_⟩
  · have hsq : x_hat a c ^ 2 = a / c := Real.sq_sqrt hac.le
    unfold FOC_AC x_hat
    rw [zpow_neg_two_eq]
    rw [show Real.sqrt (a / c) ^ 2 = a / c from hsq]
    field_simp
    ring
  · intro x hx hfoc
    unfold FOC_AC at hfoc
    rw [zpow_neg_two_eq] at hfoc
    have hx2 : x ^ 2 = a / c := by
      field_simp at hfoc
      field_simp
      linarith [hfoc]
    calc x = Real.sqrt (x ^ 2) := (Real.sqrt_sq hx.le).symm
    _ = x_hat a c := by rw [hx2]; rfl
  · intro x hx
    rw [avg_cost_at_xhat a b c ha hc]
    exact avg_cost_lower_bound a b c ha hc x hx
  · intro x hx
    have h1 : HasDerivAt (fun y : ℝ => y ^ (-1 : ℤ))
        ((-1 : ℝ) * x ^ (-2 : ℤ)) x := by
      have := hasDerivAt_zpow (-1) x (Or.inl hx)
      norm_num at this ⊢
      exact this
    have h2 : HasDerivAt (fun y : ℝ => a * y ^ (-1 : ℤ) + b + c * y)
        (a * ((-1 : ℝ) * x ^ (-2 : ℤ)) + c * 1) x :=
      ((h1.const_mul a).add_const b).add ((hasDerivAt_id x).const_mul c)
    have heq : a * ((-1 : ℝ) * x ^ (-2 : ℤ)) + c * 1 = FOC_AC x (a, b, c) := by
      unfold FOC_AC
      ring
    rw [heq] at h2
    exact h2

/-- Witness for C3 at the notebook's parameters `a, b, c = 1, 2, 3`. -/
theorem FOC_AC_closed_form_witness :
    FOC_AC (x_hat 1 3) (1, 2, 3) = 0 ∧
    (∀ x, 0 < x → FOC_AC x (1, 2, 3) = 0 → x = x_hat 1 3) ∧
    (∀ x, 0 < x → avg_cost (x_hat 1 3) (1, 2, 3) ≤ avg_cost x (1, 2, 3)) ∧
    (∀ x, x ≠ 0 →
      HasDerivAt (fun y => avg_cost y (1, 2, 3)) (FOC_AC x (1, 2, 3)) x) :=
  FOC_AC_closed_form 1 2 3 (by norm_num) (by norm_num) (by norm_num)

end RootFinding

namespace ParamToolsModel

/-- Modelled from the spec: the ParamTools/OG-Core validation machinery is
not part of this repository (the notebook only calls it), so it is modelled
here from the spec's description: parameter metadata declares validators and
`update_specifications` "will validate the new values against the parameter
validators. If the new values do not meet the constraints, the method will
raise an error." A parameter value is a float (exact rational here) or a
string. -/
inductive Value where
  | num (q : ℚ)
  | str (s : String)
  deriving Repr, DecidableEq

/-- Modelled from the spec: a declared validator, either a numeric
`range {min, max}` or a string `choice {choices}` as in the parameter
metadata JSON shown in the notebook. -/
inductive Validator where
  | range (lo hi : ℚ)
  | choice (cs : List String)
  deriving Repr, DecidableEq

/-- Modelled from the spec: a proposed value passes a range validator when
it is a number within [min, max], and a choice validator when it is a
string in the choice list. -/
def validate : Validator → Value → Bool
  | .range lo hi, .num q => decide (lo ≤ q) && decide (q ≤ hi)
  | .range _ _, .str _ => false
  | .choice cs, .str s => cs.contains s
  | .choice _, .num _ => false

/-- A parameters object: an association of parameter names to their
declared validator and current value. -/
def Params := List (String × Validator × Value)

/-- Set the value of the named parameter, leaving the rest unchanged. -/
def setValue (ps : Params) (name : String) (v : Value) : Params :=
  ps.map (fun e => if e.1 = name then (e.1, e.2.1, v) else e)

/-- Modelled from the spec: `update_specifications` validates the proposed
value against the parameter's declared validators; on success the value is
set, on failure a ValidationError is raised and the parameters object is
left unchanged. The notebooks catch nothing, so the error propagates,
modelled by returning it alongside the (unchanged) object. -/
def update_specifications (ps : Params) (name : String) (v : Value) :
    Params × Option String :=
  match List.lookup name ps with
  | none => (ps, some "ParameterUpdateException")
  | some (vd, _) =>
    if validate vd v then (setValue ps name v, none)
    else (ps, some "ValidationError")

/-- Modelled from the spec: the slice of the OG-Core/OG-USA default
parameters the ParamTools notebook updates — `cit_rate`, a float whose
declared range validator is [0, 1], and `tax_func_type`, a string whose
declared choice list does not contain "whatever". -/
def usa_params : Params :=
  [("cit_rate", (.range 0 1, .num (21 / 100))),
   ("tax_func_type",
     (.choice ["DEP", "DEP_totalinc", "GS", "HSV", "linear", "mono"],
      .str "DEP"))]

/-- C4: updating `tax_func_type` to "whatever" (not in the choice list)
raises a ValidationError and leaves the parameters object unchanged, while
every update of `cit_rate` to a value in [0.1, 0.4] succeeds (no error) and
sets the parameter to that value. -/
theorem update_specifications_validation (q : ℚ)
    (h1 : 1 / 10 ≤ q) (h2 : q ≤ 4 / 10) :
    ((update_specifications usa_params "tax_func_type"
        (.str "whatever")).2 = some "ValidationError" ∧
      (update_specifications usa_params "tax_func_type"
        (.str "whatever")).1 = usa_params) ∧
    ((update_specifications usa_params "cit_rate" (.num q)).2 = none ∧
      List.lookup "cit_rate"
          ((update_specifications usa_params "cit_rate" (.num q)).1) =
        some (.range 0 1, .num q)) := by
  have hq0 : (0 : ℚ) ≤ q := by linarith
  have hq1 : q ≤ 1 := by linarith
  constructor
  · constructor <;> rfl
  · simp [update_specifications, usa_params, validate, setValue, hq0, hq1,
      List.lookup]

/-- Witness for C4 at the concrete update value 1/4 ∈ [0.1, 0.4]. -/
theorem update_specifications_validation_witness :
    ((update_specifications usa_params "tax_func_type"
        (.str "whatever")).2 = some "ValidationError" ∧
      (update_specifications usa_params "tax_func_type"
        (.str "whatever")).1 = usa_params) ∧
    ((update_specifications usa_params "cit_rate" (.num (1 / 4))).2 = none ∧
      List.lookup "cit_rate"
          ((update_specifications usa_params "cit_rate" (.num (1 / 4))).1) =
        some (.range 0 1, .num (1 / 4))) :=
  update_specifications_validation (1 / 4) (by norm_num) (by norm_num)

end ParamToolsModel

namespace DaskNotebook

/-- A persistent file-system operation performed by a notebook cell. -/
inductive FsOp where
  | read (name : String)
  | write (name : String) (content : ℕ)
  | remove (name : String)
  deriving Repr, DecidableEq

/-- The data directory as a map from file name to (abstract) content;
`none` means the file is absent. -/
def FsState := String → Option ℕ

/-- Apply one operation: reads leave the directory unchanged, `to_csv`
writes create or overwrite the named file, `os.remove` deletes it. -/
def applyOp (s : FsState) : FsOp → FsState
  | .read _ => s
  | .write name c => fun f => if f = name then some c else s f
  | .remove name => fun f => if f = name then none else s f

/-- Run a list of operations left to right. -/
def run (s : FsState) (ops : List FsOp) : FsState := ops.foldl applyOp s

/-- The persistent file-system trace of a complete run of the Dask
notebook, cell by cell: the trade CSV reads (pandas and Dask), the
`read_stata` reads, the merge-output writes inside `pd_profile_func` and
`dd_profile_func` (and by the shelled-out profiling scripts), the
`trade_data_2022.csv` reads, and the final cleanup cell's two `os.remove`
calls. Written contents are abstract tokens. -/
def notebookOps : List FsOp :=
  [.read "trade_data_1962_to_2022.csv",
   .read "trade_data_1962_to_2022.csv",
   .read "sitc_country_country_product_year_4_2022.dta",
   .write "trade_merged_pd.csv" 0,
   .read "sitc_country_country_product_year_4_2022.dta",
   .write "trade_merged_dd.csv" 1,
   .read "sitc_country_country_product_year_4_2022.dta",
   .write "trade_merged_pd.csv" 2,
   .read "trade_data_2022.csv",
   .write "trade_merged_pd.csv" 3,
   .read "trade_data_2022.csv",
   .remove "trade_merged_pd.csv",
   .remove "trade_merged_dd.csv"]

/-- The two merge outputs written by the notebook. -/
def mergeOutputs : List String :=
  ["trade_merged_pd.csv", "trade_merged_dd.csv"]

/-- C7: a complete run of the Dask notebook leaves the data directory as it
found it (given the two merge outputs were not already present): every
write or remove targets only the two merge outputs, both of which the final
cleanup cell deletes, and every other file is only read. -/
theorem dask_notebook_frame (s : FsState)
    (h1 : s "trade_merged_pd.csv" = none)
    (h2 : s "trade_merged_dd.csv" = none) :
    run s notebookOps = s ∧
    notebookOps.all (fun op => match op with
      | .read _ => true
      | .write name _ => mergeOutputs.contains name
      | .remove name => mergeOutputs.contains name) = true := by
  constructor
  · funext f
    by_cases hpd : f = "trade_merged_pd.csv"
    · subst hpd
      simp [run, notebookOps, applyOp, h1]
    · by_cases hdd : f = "trade_merged_dd.csv"
      · subst hdd
        simp [run, notebookOps, applyOp, h2]
      · simp [run, notebookOps, applyOp, hpd, hdd]
  · rfl

/-- Witness for C7 on the empty data directory. -/
theorem dask_notebook_frame_witness :
    run (fun _ => none) notebookOps = (fun _ => none) ∧
    notebookOps.all (fun op => match op with
      | .read _ => true
      | .write name _ => mergeOutputs.contains name
      | .remove name => mergeOutputs.contains name) = true :=
  dask_notebook_frame (fun _ => none) rfl rfl

end DaskNotebook
